import Mathlib

/-!
Verification of the conversion worker of the ExceltoPDF repository
(`main.pyw`, classes `ConversionWorker` and `ExcelToPDFConverterApp`).

Shallow embedding conventions:
* Paths are lists of characters (`Path := List Char`).  `os.path.join` is
  modelled as insertion of a single `/` separator and `os.path.normpath` as
  the identity on such already-normalised slash-separated paths.
* The external Excel automation engine is an oracle `engineOk : ℕ → ℕ → Bool`
  telling whether the attempt numbered `a` (1-based) on the file with index
  `i` succeeds.  A failing attempt raises inside the `try` block; the model
  places the raise at the `Workbooks.Open` call.
* The cancellation flag is written by another thread; since it is monotone
  (only ever set), it is modelled by an optional threshold `cancelT`:
  the `k`-th call of `is_cancelled` (calls are counted from 0) returns
  `true` exactly when `cancelT = some t` with `t ≤ k`.
* The disk is a set of existing paths, `Path → Bool`.  `os.rename` removes
  the source and creates the destination, and raises (Windows semantics,
  the program drives `win32com`) when the destination already exists.
* Emitted Qt signals, engine calls, sleeps and `is_cancelled` checks are
  recorded as an event trace.
-/

namespace ExcelToPDF

/-- A file-system path, as the list of its characters. -/
abbrev Path := List Char

/-- `os.path.join dir name` in the slash-separated model. -/
def joinPath (dir name : Path) : Path := dir ++ '/' :: name

/-- `os.path.basename`: the part of the path after the last separator. -/
def basename (p : Path) : Path := (p.reverse.takeWhile (fun c => c != '/')).reverse

/-- `file_name.rsplit('.', 1)[0]`: everything before the last dot, or the
whole name if it has no dot. -/
def rsplitHead (l : Path) : Path :=
  match l.reverse.dropWhile (fun c => c != '.') with
  | [] => l
  | _ :: rest => rest.reverse

/-- The literal `".xls"`. -/
def xlsSuffix : Path := ['.', 'x', 'l', 's']

/-- The literal `".xlsx"`. -/
def xlsxSuffix : Path := ['.', 'x', 'l', 's', 'x']

/-- The literal `".pdf"`. -/
def pdfSuffix : Path := ['.', 'p', 'd', 'f']

/-- Lines 48–51 of `main.pyw`: derive the PDF basename from the input
basename (`if file_name.endswith((".xls", ".xlsx")): pdf_name =
file_name.rsplit('.', 1)[0] + ".pdf" else: pdf_name = file_name + ".pdf"`). -/
def derivePdfName (name : Path) : Path :=
  if xlsSuffix.isSuffixOf name || xlsxSuffix.isSuffixOf name then
    rsplitHead name ++ pdfSuffix
  else
    name ++ pdfSuffix

/-- `dropWhile` jumps over a block of characters on which the predicate
holds and stops at the first failure. -/
theorem dropWhile_append_of_forall {p : Char → Bool} :
    ∀ (a : Path) {y : Char} (b : Path), (∀ x ∈ a, p x = true) → p y = false →
      (a ++ y :: b).dropWhile p = y :: b := by
  intro a
  induction a with
  | nil => intro y b _ hy; simp [List.dropWhile, hy]
  | cons c cs ih =>
      intro y b ha hy
      have hc : p c = true := ha c (by simp)
      simp only [List.cons_append, List.dropWhile_cons, hc, if_true]
      exact ih b (fun x hx => ha x (by simp [hx])) hy

/-- `rsplitHead` on a name that ends in a dot-suffix whose tail contains no
further dot strips exactly that suffix. -/
theorem rsplitHead_append_dot (pre : Path) (suf : Path)
    (hsuf : ∀ x ∈ suf, x ≠ '.') :
    rsplitHead (pre ++ '.' :: suf) = pre := by
  unfold rsplitHead
  have h1 : (pre ++ '.' :: suf).reverse = suf.reverse ++ '.' :: pre.reverse := by
    simp
  rw [h1, dropWhile_append_of_forall suf.reverse pre.reverse
        (fun x hx => by
          simp only [List.mem_reverse] at hx
          simp [hsuf x hx])
        (by simp)]
  simp

/-- C1: for every input file name ending in `".xls"` or `".xlsx"`, the derived
PDF basename is the input basename with exactly that trailing suffix removed
and `".pdf"` appended; for every input name without such a suffix, it is the
full basename with `".pdf"` appended (so `"name.pdf"` yields
`"name.pdf.pdf"`). -/
theorem claim1_derived_pdf_basename (pre name : Path) :
    derivePdfName (pre ++ xlsSuffix) = pre ++ pdfSuffix ∧
    derivePdfName (pre ++ xlsxSuffix) = pre ++ pdfSuffix ∧
    (xlsSuffix.isSuffixOf name = false → xlsxSuffix.isSuffixOf name = false →
      derivePdfName name = name ++ pdfSuffix) := by
  refine ⟨?_, ?_, ?_⟩
  · have hc : xlsSuffix.isSuffixOf (pre ++ xlsSuffix) = true := by
      simp [List.isSuffixOf_iff_suffix, List.suffix_append]
    have h : rsplitHead (pre ++ xlsSuffix) = pre := by
      have := rsplitHead_append_dot pre ['x', 'l', 's'] (by decide)
      simpa [xlsSuffix] using this
    simp [derivePdfName, hc, h]
  · have hc : xlsxSuffix.isSuffixOf (pre ++ xlsxSuffix) = true := by
      simp [List.isSuffixOf_iff_suffix, List.suffix_append]
    have h : rsplitHead (pre ++ xlsxSuffix) = pre := by
      have := rsplitHead_append_dot pre ['x', 'l', 's', 'x'] (by decide)
      simpa [xlsxSuffix] using this
    simp [derivePdfName, hc, h]
  · intro h1 h2
    simp [derivePdfName, h1, h2]

/-- Witness for C1 at the concrete names `"Budget.xls"`, `"b.xlsx"` and
`"data.csv.pdf"`. -/
theorem claim1_derived_pdf_basename_witness :
    derivePdfName ('B' :: 'u' :: 'd' :: 'g' :: 'e' :: 't' :: xlsSuffix) =
      'B' :: 'u' :: 'd' :: 'g' :: 'e' :: 't' :: pdfSuffix ∧
    derivePdfName ('b' :: xlsxSuffix) = 'b' :: pdfSuffix ∧
    derivePdfName ("data.csv.pdf".data) = "data.csv.pdf".data ++ pdfSuffix := by
  refine ⟨(claim1_derived_pdf_basename "Budget".data [] ).1,
    (claim1_derived_pdf_basename "b".data []).2.1,
    (claim1_derived_pdf_basename [] "data.csv.pdf".data).2.2 (by decide) (by decide)⟩

/-! ### `'%20'` replacement (lines 98–114, `finalize_filenames`) -/

/-- Python's `name.replace('%20', ' ')`: scan left to right, replacing each
non-overlapping occurrence of `"%20"` by a single space and copying every
other character unchanged. -/
def replace20 : Path → Path
  | '%' :: '2' :: '0' :: rest => ' ' :: replace20 rest
  | c :: rest => c :: replace20 rest
  | [] => []

/-- Python's `'%20' in name`: does the string contain the substring `"%20"`? -/
def has20 : Path → Bool
  | '%' :: '2' :: '0' :: _ => true
  | _ :: rest => has20 rest
  | [] => false

theorem replace20_eq_self_of_not_has20 : ∀ l : Path, has20 l = false → replace20 l = l := by
  intro l
  induction l using replace20.induct with
  | case1 rest ih => intro h; simp [has20] at h
  | case2 c rest h1 ih =>
      intro h
      rw [replace20]
      · rw [ih]
        rw [has20] at h
        · exact h
        · exact h1
      · exact h1
  | case3 => intro _; rfl

theorem length_replace20_le : ∀ l : Path, (replace20 l).length ≤ l.length := by
  intro l
  induction l using replace20.induct with
  | case1 rest ih => simp only [replace20, List.length_cons]; omega
  | case2 c rest h1 ih =>
      rw [replace20]
      · simp only [List.length_cons]; omega
      · exact h1
  | case3 => simp [replace20]

theorem length_replace20_lt : ∀ l : Path, has20 l = true → (replace20 l).length < l.length := by
  intro l
  induction l using replace20.induct with
  | case1 rest ih =>
      intro _
      have := length_replace20_le rest
      simp only [replace20, List.length_cons]; omega
  | case2 c rest h1 ih =>
      intro h
      rw [has20] at h
      · rw [replace20]
        · have := ih h
          simp only [List.length_cons]; omega
        · exact h1
      · exact h1
  | case3 => intro h; simp [has20] at h

/-- Replacing changes the string exactly when `"%20"` occurs in it. -/
theorem replace20_ne_self_of_has20 (l : Path) (h : has20 l = true) : replace20 l ≠ l := by
  intro heq
  have := length_replace20_lt l h
  rw [heq] at this
  omega

/-- Every character of the output is a space or a character of the input. -/
theorem mem_replace20 : ∀ l : Path, ∀ x ∈ replace20 l, x = ' ' ∨ x ∈ l := by
  intro l
  induction l using replace20.induct with
  | case1 rest ih =>
      intro x hx
      simp only [replace20, List.mem_cons] at hx
      rcases hx with h | h
      · exact Or.inl h
      · rcases ih x h with h' | h'
        · exact Or.inl h'
        · exact Or.inr (by simp [h'])
  | case2 c rest h1 ih =>
      intro x hx
      rw [replace20] at hx
      · simp only [List.mem_cons] at hx
        rcases hx with h | h
        · exact Or.inr (by simp [h])
        · rcases ih x h with h' | h'
          · exact Or.inl h'
          · exact Or.inr (by simp [h'])
      · exact h1
  | case3 => intro x hx; simp [replace20] at hx

/-- `has20` ignores a leading character that is not `'%'`. -/
theorem has20_cons_ne (c : Char) (x : Path) (hc : c ≠ '%') :
    has20 (c :: x) = has20 x := by
  rw [has20.eq_def]
  split
  · rename_i heq; injection heq with e1 _; exact absurd e1 hc
  · rename_i c' rest heq; injection heq with _ e2; rw [e2]
  · rename_i heq; exact absurd heq (by simp)

/-- `has20` after a leading `'%'` whose tail does not start with `"20"`. -/
theorem has20_pct_cons (x : Path) (hx : ∀ r : Path, x ≠ '2' :: '0' :: r) :
    has20 ('%' :: x) = has20 x := by
  rw [has20.eq_def]
  split
  · rename_i a tail heq
    injection heq with _ e2
    exact absurd e2 (hx tail)
  · rename_i a hd rest hside heq
    injection heq with _ e2
    rw [e2]
  · rename_i a heq; exact absurd heq (by simp)

/-- If the output of the replacement starts with `"20"`, the input did too. -/
theorem replace20_twohead : ∀ (x : Path) (r : Path), replace20 x = '2' :: '0' :: r →
    ∃ r', x = '2' :: '0' :: r' := by
  intro x r h
  rcases x with _ | ⟨c, cs⟩
  · simp [replace20] at h
  · rw [replace20.eq_def] at h
    split at h
    · rename_i a tail heq
      injection h with e1 _
      exact absurd e1 (by decide)
    · rename_i a hd rest hside heq
      injection heq with ec ecs
      injection h with e1 e2
      subst ec; subst ecs; subst e1
      rcases cs with _ | ⟨d, ds⟩
      · simp [replace20] at e2
      · rw [replace20.eq_def] at e2
        split at e2
        · rename_i b tail2 heq2
          injection e2 with f1 _
          exact absurd f1 (by decide)
        · rename_i b hd2 rest2 hside2 heq2
          injection heq2 with ed eds
          injection e2 with f1 _
          subst ed; subst eds; subst f1
          exact ⟨ds, rfl⟩
        · rename_i b heq2; exact absurd heq2 (by simp)
    · rename_i a heq; exact absurd heq (by simp)

/-- The output of the replacement contains no further `"%20"`. -/
theorem has20_replace20 : ∀ l : Path, has20 (replace20 l) = false := by
  intro l
  induction l using replace20.induct with
  | case1 rest ih =>
      show has20 (' ' :: replace20 rest) = false
      rw [has20_cons_ne ' ' _ (by decide)]
      exact ih
  | case2 c rest h1 ih =>
      rw [replace20]
      · by_cases hc : c = '%'
        · subst hc
          have hx : ∀ r : Path, replace20 rest ≠ '2' :: '0' :: r := by
            intro r hr
            obtain ⟨r', hr'⟩ := replace20_twohead rest r hr
            exact h1 r' rfl hr'
          rw [has20_pct_cons _ hx]
          exact ih
        · rw [has20_cons_ne c _ hc]; exact ih
      · exact h1
  | case3 => rfl

/-- Replacing is idempotent on strings. -/
theorem replace20_replace20 (l : Path) : replace20 (replace20 l) = replace20 l :=
  replace20_eq_self_of_not_has20 _ (has20_replace20 l)

/-- Modelled from the spec's words (§4.2 / §8): the pieces of the name
between the (leftmost, non-overlapping) occurrences of `"%20"`, in order;
Python's `name.split('%20')`. -/
def splitOn20 : Path → List Path
  | '%' :: '2' :: '0' :: rest => [] :: splitOn20 rest
  | c :: rest =>
    match splitOn20 rest with
    | [] => [[c]]
    | p :: ps => (c :: p) :: ps
  | [] => [[]]

/-- Join pieces, placing `sep` between consecutive pieces. -/
def joinWith (sep : Path) : List Path → Path
  | [] => []
  | x :: [] => x
  | x :: y :: ys => x ++ sep ++ joinWith sep (y :: ys)

theorem splitOn20_ne_nil : ∀ l : Path, splitOn20 l ≠ [] := by
  intro l
  induction l using splitOn20.induct with
  | case1 rest ih =>
      rw [show splitOn20 ('%' :: '2' :: '0' :: rest) = [] :: splitOn20 rest from rfl]
      simp
  | case2 c rest h1 hsplit ih => exact absurd hsplit ih
  | case3 c rest h1 p ps hsplit ih =>
      rw [splitOn20]
      · rw [hsplit]; simp
      · exact h1
  | case4 => simp [splitOn20]

/-- The spec's reading of the replacement agrees with the code's scan:
the result is the `"%20"`-split pieces of the input joined by single
spaces. -/
theorem replace20_eq_joinWith_splitOn20 : ∀ l : Path,
    replace20 l = joinWith [' '] (splitOn20 l) := by
  intro l
  induction l using replace20.induct with
  | case1 rest ih =>
      show ' ' :: replace20 rest = joinWith [' '] (splitOn20 ('%' :: '2' :: '0' :: rest))
      rw [show splitOn20 ('%' :: '2' :: '0' :: rest) = [] :: splitOn20 rest from rfl]
      rcases h : splitOn20 rest with _ | ⟨p, ps⟩
      · exact absurd h (splitOn20_ne_nil rest)
      · rw [joinWith]
        rw [ih, h]
        rfl
  | case2 c rest h1 ih =>
      rw [replace20]
      · rw [splitOn20]
        · rcases h : splitOn20 rest with _ | ⟨p, ps⟩
          · exact absurd h (splitOn20_ne_nil rest)
          · rw [ih, h]
            rcases ps with _ | ⟨q, qs⟩
            · rfl
            · rw [joinWith, joinWith]
              simp
        · exact h1
      · exact h1
  | case3 => rfl

/-- Joining the pieces back with the separator `"%20"` reconstructs the
input: the split alters no character outside the occurrences. -/
theorem joinWith_pct_splitOn20 : ∀ l : Path,
    joinWith ['%', '2', '0'] (splitOn20 l) = l := by
  intro l
  induction l using splitOn20.induct with
  | case1 rest ih =>
      rw [show splitOn20 ('%' :: '2' :: '0' :: rest) = [] :: splitOn20 rest from rfl]
      rcases h : splitOn20 rest with _ | ⟨p, ps⟩
      · exact absurd h (splitOn20_ne_nil rest)
      · rw [joinWith]
        rw [h] at ih
        simpa using ih
  | case2 c rest h1 hsplit ih => exact absurd hsplit (splitOn20_ne_nil rest)
  | case3 c rest h1 p ps hsplit ih =>
      rw [splitOn20]
      · rw [hsplit]
        rw [hsplit] at ih
        rcases ps with _ | ⟨q, qs⟩
        · rw [show (match ([p] : List Path) with
              | [] => [[c]]
              | p :: ps => (c :: p) :: ps) = [c :: p] from rfl]
          rw [joinWith] at ih ⊢
          rw [ih]
        · rw [show (match (p :: q :: qs : List Path) with
              | [] => [[c]]
              | p :: ps => (c :: p) :: ps) = (c :: p) :: q :: qs from rfl]
          rw [joinWith] at ih ⊢
          exact congrArg (List.cons c) ih
      · exact h1
  | case4 => rfl

/-! ### Basename and join lemmas -/

/-- A name free of path separators (a plain basename). -/
def noSlash (l : Path) : Bool := l.all (fun c => c != '/')

theorem basename_joinPath (dir name : Path) (h : noSlash name = true) :
    basename (joinPath dir name) = name := by
  unfold basename joinPath
  have h1 : (dir ++ '/' :: name).reverse = name.reverse ++ '/' :: dir.reverse := by simp
  rw [h1]
  rw [List.takeWhile_append_of_pos (by
    intro a ha
    simp only [List.mem_reverse] at ha
    simp only [noSlash, List.all_eq_true] at h
    exact h a ha)]
  rw [show List.takeWhile (fun c => c != '/') ('/' :: dir.reverse) = [] by simp]
  simp

/-- A basename extracted with `os.path.basename` contains no separator. -/
theorem noSlash_basename (p : Path) : noSlash (basename p) = true := by
  simp only [noSlash, List.all_eq_true, basename]
  intro x hx
  simp only [List.mem_reverse] at hx
  exact List.mem_takeWhile_imp (p := fun c => c != '/') hx

/-- The replacement never introduces a separator. -/
theorem noSlash_replace20 (l : Path) (h : noSlash l = true) :
    noSlash (replace20 l) = true := by
  simp only [noSlash, List.all_eq_true] at h ⊢
  intro x hx
  rcases mem_replace20 l x hx with h' | h'
  · subst h'; decide
  · exact h x h'

theorem joinPath_inj (dir : Path) {a b : Path} (h : joinPath dir a = joinPath dir b) :
    a = b := by
  unfold joinPath at h
  have := List.append_cancel_left h
  injection this

/-! ### The event trace model of `ConversionWorker` -/

/-- One observable step of the worker: an emitted Qt signal, an engine
call, a sleep, a read of the cancellation flag (`check k b` records the
`k`-th call of `is_cancelled` and its result), or a file rename performed
during finalization.  `attemptLog` carries, besides the log data, the tick
`k` of the `is_cancelled` check that guarded the attempt. -/
inductive Event where
  | engineAcquire : Event
  | engineQuit : Event
  | cancelNotice : Event
  | resetPerms (file : Path) : Event
  | check (k : ℕ) (b : Bool) : Event
  | attemptLog (k : ℕ) (name : Path) (attempt retries : ℕ) : Event
  | engineOpen (file : Path) : Event
  | engineExport (pdf : Path) : Event
  | engineClose : Event
  | convertedLog (name pdf : Path) : Event
  | attemptError (name : Path) (attempt : ℕ) : Event
  | sleep : Event
  | fileFailed (name : Path) (retries : ℕ) : Event
  | progress (pct : ℕ) : Event
  | finalizeRun (paths : List Path) : Event
  | renamed (src dst : Path) : Event
  | notFound (name : Path) : Event
  | renameFailed (name : Path) : Event
  | complete (msg : String) : Event
  deriving DecidableEq

/-- The run environment: the engine oracle (`engineOk i a` is true when the
`a`-th attempt, 1-based, on the file with index `i` succeeds) and the
cancellation threshold (`cancelT = some t` means the flag is observed set
from the `t`-th `is_cancelled` call onward; `none` means it is never set). -/
structure Env where
  engineOk : ℕ → ℕ → Bool
  cancelT : Option ℕ

/-- `is_cancelled` (lines 121–125): the `k`-th read of the mutex-guarded
monotone flag. -/
def isCancelled (cT : Option ℕ) (k : ℕ) : Bool :=
  match cT with
  | none => false
  | some t => decide (t ≤ k)

/-- `os.rename src dst`: the source stops existing, the destination starts. -/
def renameFile (D : Path → Bool) (src dst : Path) : Path → Bool :=
  fun x => if x = src then false else if x = dst then true else D x

/-- A successful `ExportAsFixedFormat` creates the PDF on disk. -/
def addFile (D : Path → Bool) (p : Path) : Path → Bool :=
  fun x => if x = p then true else D x

/-- The output path the finalization pass computes for a recorded path
(lines 99–104): the output directory joined with the recorded basename
after `%20`-replacement. -/
def newPathOf (dir p : Path) : Path := joinPath dir (replace20 (basename p))

/-- One iteration of `finalize_filenames` (lines 98–114): if the new path
differs, rename when the file still exists and the rename does not raise
(it raises when the destination exists — Windows `os.rename`), logging
`notFound` or `renameFailed` otherwise. -/
def finalizeStep (dir : Path) (D : Path → Bool) (p : Path) : (Path → Bool) × List Event :=
  if p = newPathOf dir p then (D, [])
  else if D p then
    if D (newPathOf dir p) then (D, [Event.renameFailed (basename p)])
    else (renameFile D p (newPathOf dir p), [Event.renamed p (newPathOf dir p)])
  else (D, [Event.notFound (basename p)])

/-- `finalize_filenames` over the recorded output paths, threading the
disk state and collecting the log events. -/
def finalizeAux (dir : Path) (D : Path → Bool) : List Path → (Path → Bool) × List Event
  | [] => (D, [])
  | p :: ps =>
    let r := finalizeStep dir D p
    let rest := finalizeAux dir r.1 ps
    (rest.1, r.2 ++ rest.2)

/-- The worker state threaded through the conversion loop: the
`is_cancelled` call counter, the disk, and `saved_pdf_paths`. -/
structure LoopSt where
  k : ℕ
  disk : Path → Bool
  saved : List Path

/-- The retry loop (lines 58–78): up to `fuel` remaining attempts, the
current one numbered `a`; each attempt is guarded by an `is_cancelled`
check, a failed attempt logs the error and sleeps one unit, a successful
attempt records the PDF path and stops.  Returns the events, the new
state, and the `success` flag. -/
def tryAttempts (env : Env) (i : ℕ) (file name pdfPath : Path) (retries : ℕ) :
    ℕ → ℕ → LoopSt → List Event × LoopSt × Bool
  | _, 0, st => ([], st, false)
  | a, fuel + 1, st =>
    if isCancelled env.cancelT st.k then
      ([Event.check st.k true], ⟨st.k + 1, st.disk, st.saved⟩, false)
    else if env.engineOk i a then
      ([Event.check st.k false, Event.attemptLog st.k name a retries,
        Event.engineOpen file, Event.engineExport pdfPath, Event.engineClose,
        Event.convertedLog name pdfPath],
       ⟨st.k + 1, addFile st.disk pdfPath, st.saved ++ [pdfPath]⟩, true)
    else
      let r := tryAttempts env i file name pdfPath retries (a + 1) fuel
        ⟨st.k + 1, st.disk, st.saved⟩
      (Event.check st.k false :: Event.attemptLog st.k name a retries ::
        Event.engineOpen file :: Event.attemptError name a :: Event.sleep :: r.1,
       r.2)

/-- Lines 80–81: `if not success and not self.is_cancelled():` record the
terminal per-file failure.  The flag is read (consuming tick `k`) only when
`success` is false — Python's short-circuit `and`. -/
def fileBlock2 (env : Env) (name : Path) (retries : ℕ) (success : Bool) (k : ℕ) :
    List Event × ℕ :=
  if success then ([], k)
  else if isCancelled env.cancelT k then ([Event.check k true], k + 1)
  else ([Event.check k false, Event.fileFailed name retries], k + 1)

/-- Lines 83–86: `if not self.is_cancelled():` advance the processed
counter and emit `int((processed_files / total_files) * 100)` (the Python
float expression, modelled by exact natural division). -/
def fileBlock3 (env : Env) (total processed k : ℕ) : List Event × ℕ × ℕ :=
  if isCancelled env.cancelT k then ([Event.check k true], k + 1, processed)
  else ([Event.check k false, Event.progress ((processed + 1) * 100 / total)],
    k + 1, processed + 1)

/-- The per-file loop of `convert_files` (lines 41–86): a cancellation
check before each file (a `true` read emits the cancel notice and breaks),
the derived PDF path, the permissions reset, the retry loop, the
per-file failure record, and the progress update. -/
def loopFiles (env : Env) (dir : Path) (retries total : ℕ) :
    ℕ → ℕ → LoopSt → List Path → List Event × ℕ × LoopSt
  | _, processed, st, [] => ([], processed, st)
  | i, processed, st, f :: fs =>
    if isCancelled env.cancelT st.k then
      ([Event.check st.k true, Event.cancelNotice], processed,
       ⟨st.k + 1, st.disk, st.saved⟩)
    else
      let pdfPath := joinPath dir (derivePdfName (basename f))
      let r1 := tryAttempts env i f (basename f) pdfPath retries 1 retries
        ⟨st.k + 1, st.disk, st.saved⟩
      let p2 := fileBlock2 env (basename f) retries r1.2.2 r1.2.1.k
      let p3 := fileBlock3 env total processed p2.2
      let r4 := loopFiles env dir retries total (i + 1) p3.2.2
        ⟨p3.2.1, r1.2.1.disk, r1.2.1.saved⟩ fs
      (Event.check st.k false :: Event.resetPerms f :: (r1.1 ++ p2.1 ++ p3.1 ++ r4.1),
       r4.2)

/-- The result of one `convert_files` run: the full event trace, the final
`saved_pdf_paths` list handed to finalization, and the final disk. -/
structure RunResult where
  events : List Event
  saved : List Path
  disk : Path → Bool

/-- `convert_files` (lines 34–91): acquire the Excel application, run the
per-file loop, quit the application, run `finalize_filenames` over the
recorded paths, and emit the terminal event according to a final
`is_cancelled` read. -/
def convert (env : Env) (dir : Path) (files : List Path) (retries : ℕ)
    (disk0 : Path → Bool) : RunResult :=
  let total := files.length
  let r := loopFiles env dir retries total 0 0 ⟨0, disk0, []⟩ files
  let st := r.2.2
  let fin := finalizeAux dir st.disk st.saved
  let c := isCancelled env.cancelT st.k
  { events := Event.engineAcquire :: r.1 ++
      Event.engineQuit :: Event.finalizeRun st.saved :: fin.2 ++
      [Event.check st.k c,
       Event.complete (if c then "Conversion cancelled." else "All files processed.")],
    saved := st.saved,
    disk := fin.1 }

/-- The values carried by the `progress` signals of a trace, in order. -/
def progressValues (l : List Event) : List ℕ :=
  l.filterMap fun e => match e with | Event.progress v => some v | _ => none

/-- The progress-bar value shown after replaying a trace in the GUI:
`progress_bar.setValue(0)` at start (line 237), `update_progress` on each
`progress` signal (lines 252–253), and the forced
`progress_bar.setValue(100)` of `conversion_complete` (line 258). -/
def displayAfter (l : List Event) : ℕ :=
  l.foldl (fun d e => match e with
    | Event.progress v => v
    | Event.complete _ => 100
    | _ => d) 0

/-! ### Event counting helpers -/

/-- Number of `renamed` events (on-disk renames performed). -/
def countRenamed (l : List Event) : ℕ :=
  l.countP fun e => match e with | Event.renamed _ _ => true | _ => false

/-- Number of `renamed` events whose source is `p`. -/
def renamesFrom (p : Path) (l : List Event) : ℕ :=
  l.countP fun e => match e with | Event.renamed src _ => src == p | _ => false

/-! ### Finalization: C2 and C5 -/

/-- The four outcomes of one `finalize_filenames` iteration. -/
theorem finalizeStep_cases (dir : Path) (D : Path → Bool) (p : Path) :
    (p = newPathOf dir p ∧ finalizeStep dir D p = (D, [])) ∨
    (p ≠ newPathOf dir p ∧ D p = true ∧ D (newPathOf dir p) = true ∧
      finalizeStep dir D p = (D, [Event.renameFailed (basename p)])) ∨
    (p ≠ newPathOf dir p ∧ D p = true ∧ D (newPathOf dir p) = false ∧
      finalizeStep dir D p =
        (renameFile D p (newPathOf dir p), [Event.renamed p (newPathOf dir p)])) ∨
    (p ≠ newPathOf dir p ∧ D p = false ∧
      finalizeStep dir D p = (D, [Event.notFound (basename p)])) := by
  by_cases h1 : p = newPathOf dir p
  · refine Or.inl ⟨h1, ?_⟩
    unfold finalizeStep
    rw [if_pos h1]
  · by_cases h2 : D p = true
    · by_cases h3 : D (newPathOf dir p) = true
      · exact Or.inr (Or.inl ⟨h1, h2, h3, by simp [finalizeStep, h1, h2, h3]⟩)
      · refine Or.inr (Or.inr (Or.inl ⟨h1, h2, by simpa using h3, ?_⟩))
        simp only [Bool.not_eq_true] at h3
        simp [finalizeStep, h1, h2, h3]
    · refine Or.inr (Or.inr (Or.inr ⟨h1, by simpa using h2, ?_⟩))
      simp only [Bool.not_eq_true] at h2
      simp [finalizeStep, h1, h2]

/-- Computing the new path is idempotent: a path of the form
`dir/replaced-name` is its own new path. -/
theorem newPathOf_newPathOf (dir p : Path) :
    newPathOf dir (newPathOf dir p) = newPathOf dir p := by
  unfold newPathOf
  rw [basename_joinPath dir _ (noSlash_replace20 _ (noSlash_basename p)),
    replace20_replace20]

/-- A recorded path is *settled* for a disk when its finalization step can
no longer perform an on-disk rename: the new path equals the old one, or
the file is gone, or the destination is occupied. -/
def settled (dir : Path) (D : Path → Bool) (p : Path) : Prop :=
  newPathOf dir p = p ∨ D p = false ∨ (D p = true ∧ D (newPathOf dir p) = true)

/-- A settled path's step leaves the disk unchanged and renames nothing. -/
theorem finalizeStep_of_settled (dir : Path) (D : Path → Bool) (p : Path)
    (h : settled dir D p) :
    (finalizeStep dir D p).1 = D ∧ countRenamed (finalizeStep dir D p).2 = 0 := by
  rcases finalizeStep_cases dir D p with ⟨_, he⟩ | ⟨_, _, _, he⟩ | ⟨hne, hDp, hDn, he⟩ | ⟨_, _, he⟩
  · rw [he]; exact ⟨rfl, rfl⟩
  · rw [he]; exact ⟨rfl, rfl⟩
  · rcases h with h | h | ⟨_, h⟩
    · exact absurd h.symm hne
    · rw [hDp] at h; cases h
    · rw [hDn] at h; cases h
  · rw [he]; exact ⟨rfl, rfl⟩

/-- Settledness of any path is preserved by any other step. -/
theorem settled_preserved (dir : Path) (D : Path → Bool) (p q : Path)
    (h : settled dir D p) : settled dir (finalizeStep dir D q).1 p := by
  rcases finalizeStep_cases dir D q with ⟨_, he⟩ | ⟨_, _, _, he⟩ | ⟨hne, hDq, hDn, he⟩ | ⟨_, _, he⟩
  · rw [he]; exact h
  · rw [he]; exact h
  · rw [he]
    simp only [settled, renameFile]
    rcases h with h | h | ⟨hDp, hDnp⟩
    · exact Or.inl h
    · by_cases hpq : p = q
      · subst hpq; right; left
        show (if p = p then false else if p = newPathOf dir p then true else D p) = false
        rw [if_pos rfl]
      · by_cases hpn : p = newPathOf dir q
        · left
          rw [hpn, newPathOf_newPathOf]
        · right; left
          show (if p = q then false else if p = newPathOf dir q then true else D p) = false
          rw [if_neg hpq, if_neg hpn]
          exact h
    · -- both the file and its destination exist
      by_cases hpq : p = q
      · subst hpq
        rw [hDnp] at hDn; cases hDn
      · by_cases hqn : q = newPathOf dir p
        · have hq2 : newPathOf dir q = q := by
            rw [hqn, newPathOf_newPathOf]
          exact absurd hq2.symm hne
        · right; right
          constructor
          · show (if p = q then false else if p = newPathOf dir q then true else D p) = true
            rw [if_neg hpq]
            by_cases hpn : p = newPathOf dir q
            · rw [if_pos hpn]
            · rw [if_neg hpn]; exact hDp
          · have h1 : newPathOf dir p ≠ q := fun h => hqn h.symm
            show (if newPathOf dir p = q then false
              else if newPathOf dir p = newPathOf dir q then true
              else D (newPathOf dir p)) = true
            rw [if_neg h1]
            by_cases h2 : newPathOf dir p = newPathOf dir q
            · rw [if_pos h2]
            · rw [if_neg h2]; exact hDnp
  · rw [he]; exact h

/-- A path's own step leaves it settled. -/
theorem settled_after_step (dir : Path) (D : Path → Bool) (p : Path) :
    settled dir (finalizeStep dir D p).1 p := by
  rcases finalizeStep_cases dir D p with ⟨h1, he⟩ | ⟨h1, h2, h3, he⟩ | ⟨h1, h2, h3, he⟩ | ⟨h1, h2, he⟩
  · rw [he]; exact Or.inl h1.symm
  · rw [he]; exact Or.inr (Or.inr ⟨h2, h3⟩)
  · rw [he]; right; left; simp [renameFile]
  · rw [he]; exact Or.inr (Or.inl h2)

/-- Settledness survives a whole finalization pass. -/
theorem settled_after_aux (dir : Path) (p : Path) :
    ∀ (qs : List Path) (D : Path → Bool), settled dir D p →
      settled dir (finalizeAux dir D qs).1 p := by
  intro qs
  induction qs with
  | nil => intro D h; exact h
  | cons q qs ih =>
      intro D h
      show settled dir (finalizeAux dir (finalizeStep dir D q).1 qs).1 p
      exact ih _ (settled_preserved dir D p q h)

/-- After one pass, every recorded path is settled in the resulting disk. -/
theorem settled_all_after_pass (dir : Path) :
    ∀ (saved : List Path) (D : Path → Bool) (p : Path), p ∈ saved →
      settled dir (finalizeAux dir D saved).1 p := by
  intro saved
  induction saved with
  | nil => intro D p hp; cases hp
  | cons q qs ih =>
      intro D p hp
      rcases List.mem_cons.mp hp with h | h
      · subst h
        exact settled_after_aux dir p qs _ (settled_after_step dir D p)
      · exact ih _ p h

/-- A pass over settled paths renames nothing and leaves the disk alone. -/
theorem finalizeAux_of_settled (dir : Path) :
    ∀ (saved : List Path) (D : Path → Bool), (∀ p ∈ saved, settled dir D p) →
      countRenamed (finalizeAux dir D saved).2 = 0 ∧ (finalizeAux dir D saved).1 = D := by
  intro saved
  induction saved with
  | nil => intro D _; exact ⟨rfl, rfl⟩
  | cons q qs ih =>
      intro D h
      have hq := finalizeStep_of_settled dir D q (h q (by simp))
      have hrest := ih (finalizeStep dir D q).1 (by
        rw [hq.1]; exact fun p hp => h p (by simp [hp]))
      constructor
      · show countRenamed ((finalizeStep dir D q).2 ++
          (finalizeAux dir (finalizeStep dir D q).1 qs).2) = 0
        unfold countRenamed at hq hrest ⊢
        rw [List.countP_append, hq.2, hrest.1]
      · show (finalizeAux dir (finalizeStep dir D q).1 qs).1 = D
        rw [hrest.2, hq.1]

/-- C5: filename finalization is idempotent — running the pass a second
time immediately after the first, over the same recorded output paths,
performs no further on-disk renames (the second pass emits no `renamed`
event, for every directory, path list and initial disk). -/
theorem claim5_finalize_idempotent (dir : Path) (saved : List Path) (D : Path → Bool) :
    countRenamed (finalizeAux dir (finalizeAux dir D saved).1 saved).2 = 0 :=
  (finalizeAux_of_settled dir saved (finalizeAux dir D saved).1
    (fun p hp => settled_all_after_pass dir saved D p hp)).1

/-- C2: for a recorded output path `dir/b` whose basename `b` contains
`"%20"` and which still exists while its destination does not, the
finalization step renames it on disk, in the same directory, to the
basename with every occurrence of `"%20"` replaced by a single space and
no other character altered (the new basename is the `"%20"`-split pieces
of `b` joined by single spaces, those pieces reassemble to exactly `b`,
and no occurrence remains); a recorded path whose basename contains no
`"%20"` is never renamed, neither by its own step nor anywhere in a whole
finalization pass. -/
theorem claim2_finalize_pct20_rename (dir b : Path) (D : Path → Bool)
    (hb : noSlash b = true) :
    (has20 b = true → D (joinPath dir b) = true →
      D (joinPath dir (replace20 b)) = false →
      finalizeStep dir D (joinPath dir b) =
        (renameFile D (joinPath dir b) (joinPath dir (replace20 b)),
         [Event.renamed (joinPath dir b) (joinPath dir (replace20 b))]) ∧
      replace20 b = joinWith [' '] (splitOn20 b) ∧
      joinWith ['%', '2', '0'] (splitOn20 b) = b ∧
      has20 (replace20 b) = false) ∧
    (has20 b = false → finalizeStep dir D (joinPath dir b) = (D, [])) ∧
    (has20 b = false → ∀ (saved : List Path) (E : Path → Bool),
      renamesFrom (joinPath dir b) (finalizeAux dir E saved).2 = 0) := by
  have hnew : newPathOf dir (joinPath dir b) = joinPath dir (replace20 b) := by
    unfold newPathOf
    rw [basename_joinPath dir b hb]
  refine ⟨?_, ?_, ?_⟩
  · intro h20 hD hDn
    have hne : joinPath dir b ≠ newPathOf dir (joinPath dir b) := by
      rw [hnew]
      intro h
      exact replace20_ne_self_of_has20 b h20 (joinPath_inj dir h.symm)
    refine ⟨?_, replace20_eq_joinWith_splitOn20 b, joinWith_pct_splitOn20 b,
      has20_replace20 b⟩
    rw [show finalizeStep dir D (joinPath dir b) =
      (renameFile D (joinPath dir b) (newPathOf dir (joinPath dir b)),
       [Event.renamed (joinPath dir b) (newPathOf dir (joinPath dir b))]) from ?_]
    · rw [hnew]
    · rw [hnew] at hne ⊢
      simp [finalizeStep, newPathOf, basename_joinPath dir b hb, hne, hD, hDn]
  · intro h20
    have heq : joinPath dir b = newPathOf dir (joinPath dir b) := by
      rw [hnew, replace20_eq_self_of_not_has20 b h20]
    simp [finalizeStep, ← heq]
  · intro h20 saved
    have heq : joinPath dir b = newPathOf dir (joinPath dir b) := by
      rw [hnew, replace20_eq_self_of_not_has20 b h20]
    induction saved with
    | nil => intro E; rfl
    | cons q qs ih =>
        intro E
        show renamesFrom (joinPath dir b) ((finalizeStep dir E q).2 ++
          (finalizeAux dir (finalizeStep dir E q).1 qs).2) = 0
        unfold renamesFrom at ih ⊢
        rw [List.countP_append, ih]
        rcases finalizeStep_cases dir E q with ⟨_, he⟩ | ⟨_, _, _, he⟩ |
          ⟨hne, _, _, he⟩ | ⟨_, _, he⟩
        · rw [he]; rfl
        · rw [he]; rfl
        · rw [he]
          simp only [List.countP_cons, List.countP_nil]
          have : (q == joinPath dir b) = false := by
            rw [beq_eq_false_iff_ne]
            intro h
            subst h
            exact hne heq
          simp [this]
        · rw [he]; rfl

/-- Witness for C2 with `dir = "/out"`, `b = "a%20b.pdf"` and a disk on
which exactly the recorded path exists. -/
theorem claim2_finalize_pct20_rename_witness :
    (finalizeStep "/out".data (fun x => x == joinPath "/out".data "a%20b.pdf".data)
        (joinPath "/out".data "a%20b.pdf".data)).2 =
      [Event.renamed (joinPath "/out".data "a%20b.pdf".data)
        (joinPath "/out".data (replace20 "a%20b.pdf".data))] ∧
    (finalizeStep "/out".data (fun x => x == joinPath "/out".data "plain.pdf".data)
        (joinPath "/out".data "plain.pdf".data)).2 = [] := by
  constructor
  · rw [((claim2_finalize_pct20_rename "/out".data "a%20b.pdf".data
      (fun x => x == joinPath "/out".data "a%20b.pdf".data) (by decide)).1
      (by decide) (by decide) (by decide)).1]
  · rw [(claim2_finalize_pct20_rename "/out".data "plain.pdf".data
      (fun x => x == joinPath "/out".data "plain.pdf".data) (by decide)).2.1
      (by decide)]

/-- C10: an empty input list with no cancellation terminates with the
exact trace "acquire, quit, finalize over the empty list, final
cancellation read, terminal event": no progress value is ever computed or
emitted (so the `processed_files / total_files` division is never
evaluated with the zero total), and the terminal event is
`"All files processed."`. -/
theorem claim10_empty_job (eOk : ℕ → ℕ → Bool) (dir : Path) (retries : ℕ)
    (D : Path → Bool) :
    convert ⟨eOk, none⟩ dir [] retries D =
      ⟨[Event.engineAcquire, Event.engineQuit, Event.finalizeRun [],
        Event.check 0 false, Event.complete "All files processed."], [], D⟩ := rfl

/-! ### Trace classification -/

/-- Number of `engineOpen` calls (conversion attempts reaching the engine). -/
def countOpens (l : List Event) : ℕ :=
  l.countP fun e => match e with | Event.engineOpen _ => true | _ => false

/-- Number of `attemptLog` lines (attempts started). -/
def countAttempts (l : List Event) : ℕ :=
  l.countP fun e => match e with | Event.attemptLog _ _ _ _ => true | _ => false

/-- Number of backoff sleeps. -/
def countSleeps (l : List Event) : ℕ :=
  l.countP fun e => match e with | Event.sleep => true | _ => false

/-- Number of terminal per-file failure records. -/
def countFileFailed (l : List Event) : ℕ :=
  l.countP fun e => match e with | Event.fileFailed _ _ => true | _ => false

/-- Number of terminal events. -/
def countCompletes (l : List Event) : ℕ :=
  l.countP fun e => match e with | Event.complete _ => true | _ => false

/-- Number of engine acquisitions (`Dispatch`). -/
def countAcquires (l : List Event) : ℕ :=
  l.countP fun e => match e with | Event.engineAcquire => true | _ => false

/-- Number of engine releases (`Quit`). -/
def countQuits (l : List Event) : ℕ :=
  l.countP fun e => match e with | Event.engineQuit => true | _ => false

/-- Number of attempts whose guarding cancellation check happened at tick
`t` or later, i.e. after the flag was set when `cancelT = some t`. -/
def lateAttempts (t : ℕ) (l : List Event) : ℕ :=
  l.countP fun e => match e with
    | Event.attemptLog k _ _ _ => decide (t ≤ k)
    | _ => false

/-- Events the retry loop can emit. -/
def isAttemptEvent (e : Event) : Bool :=
  match e with
  | Event.check _ _ => true
  | Event.attemptLog _ _ _ _ => true
  | Event.engineOpen _ => true
  | Event.engineExport _ => true
  | Event.engineClose => true
  | Event.convertedLog _ _ => true
  | Event.attemptError _ _ => true
  | Event.sleep => true
  | _ => false

/-- Events the per-file loop can emit. -/
def isWorkerEvent (e : Event) : Bool :=
  match e with
  | Event.cancelNotice => true
  | Event.resetPerms _ => true
  | Event.fileFailed _ _ => true
  | Event.progress _ => true
  | e => isAttemptEvent e

/-- Events the finalization pass can emit. -/
def isFinEvent (e : Event) : Bool :=
  match e with
  | Event.renamed _ _ => true
  | Event.notFound _ => true
  | Event.renameFailed _ => true
  | _ => false

theorem tryAttempts_events_attempt (env : Env) (i : ℕ) (file name pdfPath : Path)
    (retries : ℕ) :
    ∀ (fuel a : ℕ) (st : LoopSt),
      ∀ e ∈ (tryAttempts env i file name pdfPath retries a fuel st).1,
        isAttemptEvent e = true := by
  intro fuel
  induction fuel with
  | zero => intro a st e he; cases he
  | succ n ih =>
      intro a st e he
      rw [tryAttempts] at he
      by_cases h1 : isCancelled env.cancelT st.k
      · rw [if_pos h1] at he
        simp only [List.mem_singleton] at he
        subst he; rfl
      · rw [if_neg h1] at he
        by_cases h2 : env.engineOk i a
        · rw [if_pos h2] at he
          simp only [List.mem_cons, List.not_mem_nil, or_false] at he
          rcases he with he | he | he | he | he | he <;> (subst he; rfl)
        · rw [if_neg h2] at he
          simp only [List.mem_cons] at he
          rcases he with he | he | he | he | he | he
          · subst he; rfl
          · subst he; rfl
          · subst he; rfl
          · subst he; rfl
          · subst he; rfl
          · exact ih (a + 1) ⟨st.k + 1, st.disk, st.saved⟩ e he

theorem isWorkerEvent_of_isAttemptEvent (e : Event) (h : isAttemptEvent e = true) :
    isWorkerEvent e = true := by
  cases e <;> first | rfl | exact h

theorem fileBlock2_events (env : Env) (name : Path) (retries : ℕ) (s : Bool) (k : ℕ) :
    ∀ e ∈ (fileBlock2 env name retries s k).1, isWorkerEvent e = true := by
  intro e he
  unfold fileBlock2 at he
  split_ifs at he with h1 h2
  · cases he
  · simp only [List.mem_singleton] at he; subst he; rfl
  · simp only [List.mem_cons, List.not_mem_nil, or_false] at he
    rcases he with he | he <;> (subst he; rfl)

theorem fileBlock3_events (env : Env) (total processed k : ℕ) :
    ∀ e ∈ (fileBlock3 env total processed k).1, isWorkerEvent e = true := by
  intro e he
  unfold fileBlock3 at he
  split_ifs at he with h1
  · simp only [List.mem_singleton] at he; subst he; rfl
  · simp only [List.mem_cons, List.not_mem_nil, or_false] at he
    rcases he with he | he <;> (subst he; rfl)

theorem loopFiles_events_worker (env : Env) (dir : Path) (retries total : ℕ) :
    ∀ (files : List Path) (i processed : ℕ) (st : LoopSt),
      ∀ e ∈ (loopFiles env dir retries total i processed st files).1,
        isWorkerEvent e = true := by
  intro files
  induction files with
  | nil => intro i processed st e he; cases he
  | cons f fs ih =>
      intro i processed st e he
      rw [loopFiles] at he
      by_cases h1 : isCancelled env.cancelT st.k
      · rw [if_pos h1] at he
        simp only [List.mem_cons, List.not_mem_nil, or_false] at he
        rcases he with he | he <;> (subst he; rfl)
      · rw [if_neg h1] at he
        simp only [List.mem_cons, List.mem_append] at he
        rcases he with he | he | ((he | he) | he) | he
        · subst he; rfl
        · subst he; rfl
        · exact isWorkerEvent_of_isAttemptEvent e
            (tryAttempts_events_attempt env i f (basename f)
              (joinPath dir (derivePdfName (basename f))) retries retries 1
              ⟨st.k + 1, st.disk, st.saved⟩ e he)
        · exact fileBlock2_events env (basename f) retries _ _ e he
        · exact fileBlock3_events env total processed _ e he
        · exact ih (i + 1) _ _ e he

theorem finalizeStep_events_fin (dir : Path) (D : Path → Bool) (p : Path) :
    ∀ e ∈ (finalizeStep dir D p).2, isFinEvent e = true := by
  intro e he
  unfold finalizeStep at he
  split_ifs at he with h1 h2 h3
  · cases he
  · simp only [List.mem_singleton] at he; subst he; rfl
  · simp only [List.mem_singleton] at he; subst he; rfl
  · simp only [List.mem_singleton] at he; subst he; rfl

theorem finalizeAux_events_fin (dir : Path) :
    ∀ (saved : List Path) (D : Path → Bool),
      ∀ e ∈ (finalizeAux dir D saved).2, isFinEvent e = true := by
  intro saved
  induction saved with
  | nil => intro D e he; cases he
  | cons q qs ih =>
      intro D e he
      rcases List.mem_append.mp he with he | he
      · exact finalizeStep_events_fin dir D q e he
      · exact ih _ e he

/-! ### Cancellation and tick lemmas -/

/-- The flag is monotone: once a read returns true, every later read does. -/
theorem isCancelled_mono {cT : Option ℕ} {k k' : ℕ} (h : isCancelled cT k = true)
    (hk : k ≤ k') : isCancelled cT k' = true := by
  cases cT with
  | none => simp [isCancelled] at h
  | some t =>
      simp only [isCancelled, decide_eq_true_eq] at h ⊢
      omega

/-- Entering the per-file loop with the flag already set emits at most the
cancel notice and stops. -/
theorem loopFiles_cancelled (env : Env) (dir : Path) (retries total i processed : ℕ)
    (st : LoopSt) (h : isCancelled env.cancelT st.k = true) :
    ∀ files, loopFiles env dir retries total i processed st files =
      match files with
      | [] => ([], processed, st)
      | _ :: _ => ([Event.check st.k true, Event.cancelNotice], processed,
          ⟨st.k + 1, st.disk, st.saved⟩) := by
  intro files
  cases files with
  | nil => rfl
  | cons f fs => rw [loopFiles, if_pos h]

/-- The tick counter never decreases across the retry loop. -/
theorem tryAttempts_k (env : Env) (i : ℕ) (file name pdfPath : Path) (retries : ℕ) :
    ∀ (fuel a : ℕ) (st : LoopSt),
      st.k ≤ (tryAttempts env i file name pdfPath retries a fuel st).2.1.k := by
  intro fuel
  induction fuel with
  | zero => intro a st; exact Nat.le_refl _
  | succ n ih =>
      intro a st
      rw [tryAttempts]
      by_cases h1 : isCancelled env.cancelT st.k
      · rw [if_pos h1]; exact Nat.le_succ _
      · rw [if_neg h1]
        by_cases h2 : env.engineOk i a
        · rw [if_pos h2]; exact Nat.le_succ _
        · rw [if_neg h2]
          exact Nat.le_trans (Nat.le_succ _) (ih (a + 1) ⟨st.k + 1, st.disk, st.saved⟩)

/-- The failure-record block consumes at most one tick. -/
theorem fileBlock2_k (env : Env) (name : Path) (retries : ℕ) (s : Bool) (k : ℕ) :
    k ≤ (fileBlock2 env name retries s k).2 := by
  unfold fileBlock2
  split_ifs <;> simp

/-- The progress block consumes exactly one tick. -/
theorem fileBlock3_k (env : Env) (total processed k : ℕ) :
    (fileBlock3 env total processed k).2.1 = k + 1 := by
  unfold fileBlock3
  split_ifs <;> rfl

/-- The two outcomes of the progress block. -/
theorem fileBlock3_eq (env : Env) (total processed k : ℕ) :
    (isCancelled env.cancelT k = true ∧
      fileBlock3 env total processed k = ([Event.check k true], k + 1, processed)) ∨
    (isCancelled env.cancelT k = false ∧
      fileBlock3 env total processed k =
        ([Event.check k false, Event.progress ((processed + 1) * 100 / total)],
         k + 1, processed + 1)) := by
  by_cases h : isCancelled env.cancelT k
  · exact Or.inl ⟨h, by rw [fileBlock3, if_pos h]⟩
  · exact Or.inr ⟨by simpa using h, by rw [fileBlock3, if_neg h]⟩

/-! ### Progress values -/

@[simp] theorem progressValues_append (l l' : List Event) :
    progressValues (l ++ l') = progressValues l ++ progressValues l' :=
  List.filterMap_append l l' _

@[simp] theorem progressValues_nil : progressValues [] = [] := rfl

@[simp] theorem progressValues_check (k : ℕ) (b : Bool) (l : List Event) :
    progressValues (Event.check k b :: l) = progressValues l := rfl

@[simp] theorem progressValues_resetPerms (f : Path) (l : List Event) :
    progressValues (Event.resetPerms f :: l) = progressValues l := rfl

@[simp] theorem progressValues_cancelNotice (l : List Event) :
    progressValues (Event.cancelNotice :: l) = progressValues l := rfl

@[simp] theorem progressValues_progress (v : ℕ) (l : List Event) :
    progressValues (Event.progress v :: l) = v :: progressValues l := rfl

theorem progressValues_attempt_nil (l : List Event)
    (h : ∀ e ∈ l, isAttemptEvent e = true) : progressValues l = [] := by
  refine List.filterMap_eq_nil_iff.mpr fun e he => ?_
  have hh := h e he
  cases e <;> first | rfl | exact Bool.noConfusion hh

theorem progressValues_fileBlock2 (env : Env) (name : Path) (retries : ℕ)
    (s : Bool) (k : ℕ) : progressValues (fileBlock2 env name retries s k).1 = [] := by
  unfold fileBlock2
  split_ifs <;> rfl

theorem progressValues_fin_nil (l : List Event)
    (h : ∀ e ∈ l, isFinEvent e = true) : progressValues l = [] := by
  refine List.filterMap_eq_nil_iff.mpr fun e he => ?_
  have hh := h e he
  cases e <;> first | rfl | exact Bool.noConfusion hh

/-- The progress values emitted by the loop from a processed count `c` are
exactly `(c+1)*100/total, …, (c+m)*100/total` for some `m` bounded by the
number of remaining files, and the loop's final processed count is `c+m`. -/
theorem loopFiles_progress (env : Env) (dir : Path) (retries total : ℕ) :
    ∀ (files : List Path) (i processed : ℕ) (st : LoopSt),
      ∃ m, m ≤ files.length ∧
        progressValues (loopFiles env dir retries total i processed st files).1 =
          (List.range' (processed + 1) m).map (fun j => j * 100 / total) ∧
        (loopFiles env dir retries total i processed st files).2.1 = processed + m := by
  intro files
  induction files with
  | nil => intro i processed st; exact ⟨0, by simp, rfl, rfl⟩
  | cons f fs ih =>
      intro i processed st
      by_cases h1 : isCancelled env.cancelT st.k
      · rw [loopFiles_cancelled env dir retries total i processed st h1]
        exact ⟨0, by simp, rfl, rfl⟩
      · rw [loopFiles, if_neg h1]
        dsimp only
        have hTAev : ∀ e ∈ (tryAttempts env i f (basename f)
            (joinPath dir (derivePdfName (basename f))) retries 1 retries
            ⟨st.k + 1, st.disk, st.saved⟩).1, isAttemptEvent e = true :=
          tryAttempts_events_attempt env i f (basename f)
            (joinPath dir (derivePdfName (basename f))) retries retries 1
            ⟨st.k + 1, st.disk, st.saved⟩
        rcases hTA : tryAttempts env i f (basename f)
            (joinPath dir (derivePdfName (basename f))) retries 1 retries
            ⟨st.k + 1, st.disk, st.saved⟩ with ⟨ev1, st1, success⟩
        rw [hTA] at hTAev
        rcases hP2 : fileBlock2 env (basename f) retries success st1.k with ⟨ev2, k2⟩
        have hP2ev : progressValues ev2 = [] := by
          have hpv2 := progressValues_fileBlock2 env (basename f) retries success st1.k
          rw [hP2] at hpv2
          exact hpv2
        dsimp only at hTAev ⊢
        rcases fileBlock3_eq env total processed k2 with ⟨hc, heq⟩ | ⟨hc, heq⟩
        · -- the progress read saw the flag: nothing more is emitted
          rw [heq]
          dsimp only
          have hnext : isCancelled env.cancelT (k2 + 1) = true :=
            isCancelled_mono hc (Nat.le_succ _)
          rw [loopFiles_cancelled env dir retries total (i + 1) processed
            ⟨k2 + 1, st1.disk, st1.saved⟩ hnext fs]
          have hTAnone : progressValues ev1 = [] := progressValues_attempt_nil ev1 hTAev
          refine ⟨0, by simp, ?_, ?_⟩
          · cases fs <;> simp [hTAnone, hP2ev]
          · cases fs <;> rfl
        · -- progress emitted, recurse
          rw [heq]
          dsimp only
          obtain ⟨m, hm, hpv, hcount⟩ := ih (i + 1) (processed + 1)
            ⟨k2 + 1, st1.disk, st1.saved⟩
          refine ⟨m + 1, by simpa using Nat.succ_le_succ hm, ?_, ?_⟩
          · have hsplit : progressValues (Event.check st.k false :: Event.resetPerms f ::
                (ev1 ++ ev2 ++
                  [Event.check k2 false,
                    Event.progress ((processed + 1) * 100 / total)] ++
                  (loopFiles env dir retries total (i + 1) (processed + 1)
                    ⟨k2 + 1, st1.disk, st1.saved⟩ fs).1)) =
              (processed + 1) * 100 / total ::
                progressValues (loopFiles env dir retries total (i + 1) (processed + 1)
                  ⟨k2 + 1, st1.disk, st1.saved⟩ fs).1 := by
              simp [progressValues_attempt_nil ev1 hTAev, hP2ev]
            rw [hsplit, hpv, List.range'_succ]
            rfl
          · rw [hcount]
            omega

@[simp] theorem progressValues_engineAcquire (l : List Event) :
    progressValues (Event.engineAcquire :: l) = progressValues l := rfl

@[simp] theorem progressValues_engineQuit (l : List Event) :
    progressValues (Event.engineQuit :: l) = progressValues l := rfl

@[simp] theorem progressValues_finalizeRun (ps : List Path) (l : List Event) :
    progressValues (Event.finalizeRun ps :: l) = progressValues l := rfl

@[simp] theorem progressValues_complete (msg : String) (l : List Event) :
    progressValues (Event.complete msg :: l) = progressValues l := rfl

/-- The full trace of `convert_files`, written as "everything before the
final cancellation read" followed by that read and the terminal event. -/
theorem convert_events_shape (env : Env) (dir : Path) (files : List Path)
    (retries : ℕ) (D : Path → Bool) :
    (convert env dir files retries D).events =
      (Event.engineAcquire ::
        (loopFiles env dir retries files.length 0 0 ⟨0, D, []⟩ files).1 ++
        Event.engineQuit ::
        Event.finalizeRun (loopFiles env dir retries files.length 0 0 ⟨0, D, []⟩
          files).2.2.saved ::
        (finalizeAux dir
          (loopFiles env dir retries files.length 0 0 ⟨0, D, []⟩ files).2.2.disk
          (loopFiles env dir retries files.length 0 0 ⟨0, D, []⟩ files).2.2.saved).2) ++
      [Event.check
        (loopFiles env dir retries files.length 0 0 ⟨0, D, []⟩ files).2.2.k
        (isCancelled env.cancelT
          (loopFiles env dir retries files.length 0 0 ⟨0, D, []⟩ files).2.2.k),
       Event.complete
        (if isCancelled env.cancelT
            (loopFiles env dir retries files.length 0 0 ⟨0, D, []⟩ files).2.2.k
          then "Conversion cancelled." else "All files processed.")] := by
  unfold convert
  dsimp only

/-- All progress values of a run come from the per-file loop. -/
theorem progressValues_convert (env : Env) (dir : Path) (files : List Path)
    (retries : ℕ) (D : Path → Bool) :
    progressValues (convert env dir files retries D).events =
      progressValues (loopFiles env dir retries files.length 0 0 ⟨0, D, []⟩ files).1 := by
  rw [convert_events_shape]
  simp [progressValues_fin_nil _ (finalizeAux_events_fin dir _ _)]

/-- The display value after replaying a trace ending in the terminal
event is the forced 100. -/
theorem displayAfter_terminal (l : List Event) (k : ℕ) (b : Bool) (msg : String) :
    displayAfter (l ++ [Event.check k b, Event.complete msg]) = 100 := by
  unfold displayAfter
  rw [List.foldl_append]
  rfl

/-- `j ↦ j * 100 / total` is monotone along `range'`. -/
theorem chain'_le_range'_map (total : ℕ) : ∀ (m s : ℕ),
    List.Chain' (· ≤ ·) ((List.range' s m).map (fun j => j * 100 / total)) := by
  intro m
  induction m with
  | zero => intro s; exact List.chain'_nil
  | succ n ih =>
      intro s
      rw [List.range'_succ]
      cases n with
      | zero => exact List.chain'_singleton _
      | succ n2 =>
          rw [List.range'_succ, List.map_cons, List.map_cons]
          refine List.chain'_cons.mpr ⟨?_, ?_⟩
          · exact Nat.div_le_div_right (Nat.mul_le_mul_right _ (Nat.le_succ s))
          · have hih := ih (s + 1)
            rw [List.range'_succ, List.map_cons] at hih
            exact hih

/-- A computed percentage can reach 100 only when every file was counted. -/
theorem range'_map_reaches_100 (total m j : ℕ) (hm : m ≤ total)
    (hj : j ∈ List.range' 1 m) (h100 : j * 100 / total = 100) : m = total := by
  obtain ⟨o, ho, hjo⟩ := List.mem_range'.mp hj
  rcases Nat.eq_zero_or_pos total with h0 | hpos
  · subst h0
    rw [Nat.div_zero] at h100
    cases h100
  · have h1 : 100 * total ≤ j * 100 := by
      have := (Nat.le_div_iff_mul_le hpos).mp (Nat.le_of_eq h100.symm)
      exact this
    have h2 : total ≤ j := by
      have h3 : 100 * total ≤ 100 * j := by
        calc 100 * total ≤ j * 100 := h1
        _ = 100 * j := Nat.mul_comm j 100
      exact Nat.le_of_mul_le_mul_left h3 (by omega)
    omega

/-- C3: across one job the emitted progress percentages are monotonically
non-decreasing; the GUI progress value equals exactly 100 at the terminal
event (forced by `conversion_complete`, regardless of how many files
failed or whether the job was cancelled); and the computed progress
values are the prefix `1*100/n, …, m*100/n` of the percentage sequence,
which contains 100 only when all `n` files were counted — i.e. only at
terminal completion. -/
theorem claim3_progress_monotone (env : Env) (dir : Path) (files : List Path)
    (retries : ℕ) (D : Path → Bool) :
    List.Chain' (· ≤ ·) (progressValues (convert env dir files retries D).events) ∧
    displayAfter (convert env dir files retries D).events = 100 ∧
    ∃ m, m ≤ files.length ∧
      progressValues (convert env dir files retries D).events =
        (List.range' 1 m).map (fun j => j * 100 / files.length) ∧
      (100 ∈ progressValues (convert env dir files retries D).events →
        m = files.length) := by
  obtain ⟨m, hm, hpv, _⟩ :=
    loopFiles_progress env dir retries files.length files 0 0 ⟨0, D, []⟩
  have hpc : progressValues (convert env dir files retries D).events =
      (List.range' 1 m).map (fun j => j * 100 / files.length) := by
    rw [progressValues_convert, hpv]
  refine ⟨?_, ?_, m, hm, hpc, ?_⟩
  · rw [hpc]
    exact chain'_le_range'_map files.length m 1
  · rw [convert_events_shape]
    exact displayAfter_terminal _ _ _ _
  · intro h100
    rw [hpc] at h100
    obtain ⟨j, hj, hj100⟩ := List.mem_map.mp h100
    exact range'_map_reaches_100 files.length m j hm hj hj100

/-! ### Count lemmas over classified event lists -/

theorem countCompletes_worker_nil (l : List Event)
    (h : ∀ e ∈ l, isWorkerEvent e = true) : countCompletes l = 0 := by
  refine List.countP_eq_zero.mpr fun e he => ?_
  have hw := h e he
  cases e <;> first | exact fun hc => Bool.noConfusion hc | exact fun hc => Bool.noConfusion hw

theorem countCompletes_fin_nil (l : List Event)
    (h : ∀ e ∈ l, isFinEvent e = true) : countCompletes l = 0 := by
  refine List.countP_eq_zero.mpr fun e he => ?_
  have hw := h e he
  cases e <;> first | exact fun hc => Bool.noConfusion hc | exact fun hc => Bool.noConfusion hw

theorem countFileFailed_attempt_nil (l : List Event)
    (h : ∀ e ∈ l, isAttemptEvent e = true) : countFileFailed l = 0 := by
  refine List.countP_eq_zero.mpr fun e he => ?_
  have hw := h e he
  cases e <;> first | exact fun hc => Bool.noConfusion hc | exact fun hc => Bool.noConfusion hw

theorem countFileFailed_fin_nil (l : List Event)
    (h : ∀ e ∈ l, isFinEvent e = true) : countFileFailed l = 0 := by
  refine List.countP_eq_zero.mpr fun e he => ?_
  have hw := h e he
  cases e <;> first | exact fun hc => Bool.noConfusion hc | exact fun hc => Bool.noConfusion hw

theorem countAcquires_worker_nil (l : List Event)
    (h : ∀ e ∈ l, isWorkerEvent e = true) : countAcquires l = 0 := by
  refine List.countP_eq_zero.mpr fun e he => ?_
  have hw := h e he
  cases e <;> first | exact fun hc => Bool.noConfusion hc | exact fun hc => Bool.noConfusion hw

theorem countAcquires_fin_nil (l : List Event)
    (h : ∀ e ∈ l, isFinEvent e = true) : countAcquires l = 0 := by
  refine List.countP_eq_zero.mpr fun e he => ?_
  have hw := h e he
  cases e <;> first | exact fun hc => Bool.noConfusion hc | exact fun hc => Bool.noConfusion hw

theorem countQuits_worker_nil (l : List Event)
    (h : ∀ e ∈ l, isWorkerEvent e = true) : countQuits l = 0 := by
  refine List.countP_eq_zero.mpr fun e he => ?_
  have hw := h e he
  cases e <;> first | exact fun hc => Bool.noConfusion hc | exact fun hc => Bool.noConfusion hw

theorem countQuits_fin_nil (l : List Event)
    (h : ∀ e ∈ l, isFinEvent e = true) : countQuits l = 0 := by
  refine List.countP_eq_zero.mpr fun e he => ?_
  have hw := h e he
  cases e <;> first | exact fun hc => Bool.noConfusion hc | exact fun hc => Bool.noConfusion hw

/-! ### The all-attempts-fail behaviour of the retry loop -/

/-- With no cancellation and an engine failing every attempt, the retry
loop makes exactly `fuel` attempts, sleeps after each of them (the last
included), reports no success, and leaves the disk and recorded paths
untouched. -/
theorem tryAttempts_allfail (env : Env) (i : ℕ) (file name pdfPath : Path)
    (retries : ℕ) (hnone : env.cancelT = none)
    (hfail : ∀ a, env.engineOk i a = false) :
    ∀ (fuel a : ℕ) (st : LoopSt),
      countAttempts (tryAttempts env i file name pdfPath retries a fuel st).1 = fuel ∧
      countSleeps (tryAttempts env i file name pdfPath retries a fuel st).1 = fuel ∧
      (tryAttempts env i file name pdfPath retries a fuel st).2.2 = false ∧
      (tryAttempts env i file name pdfPath retries a fuel st).2.1 =
        ⟨st.k + fuel, st.disk, st.saved⟩ := by
  intro fuel
  induction fuel with
  | zero => intro a st; exact ⟨rfl, rfl, rfl, rfl⟩
  | succ n ih =>
      intro a st
      have hcan : isCancelled env.cancelT st.k = false := by rw [hnone]; rfl
      rw [tryAttempts, if_neg (by rw [hcan]; exact Bool.false_ne_true),
        if_neg (by rw [hfail a]; exact Bool.false_ne_true)]
      obtain ⟨ha, hs, hsu, hst⟩ := ih (a + 1) ⟨st.k + 1, st.disk, st.saved⟩
      dsimp only
      refine ⟨?_, ?_, hsu, ?_⟩
      · unfold countAttempts at ha ⊢
        simp only [List.countP_cons]
        rw [ha]
        simp
      · unfold countSleeps at hs ⊢
        simp only [List.countP_cons]
        rw [hs]
        simp
      · rw [hst]
        have hk : st.k + 1 + n = st.k + (n + 1) := by omega
        rw [hk]

/-- With no cancellation and an all-failing engine, the loop records
exactly one terminal per-file failure per input file. -/
theorem loopFiles_allfail_count (env : Env) (dir : Path) (retries total : ℕ)
    (hnone : env.cancelT = none) (hfail : ∀ i a, env.engineOk i a = false) :
    ∀ (files : List Path) (i processed : ℕ) (st : LoopSt),
      countFileFailed (loopFiles env dir retries total i processed st files).1 =
        files.length := by
  intro files
  induction files with
  | nil => intro i processed st; rfl
  | cons f fs ih =>
      intro i processed st
      have hcan : ∀ k, isCancelled env.cancelT k = false := by
        intro k; rw [hnone]; rfl
      rw [loopFiles, if_neg (by rw [hcan st.k]; exact Bool.false_ne_true)]
      dsimp only
      have hTAev := tryAttempts_events_attempt env i f (basename f)
        (joinPath dir (derivePdfName (basename f))) retries retries 1
        ⟨st.k + 1, st.disk, st.saved⟩
      obtain ⟨_, _, hsu, _⟩ := tryAttempts_allfail env i f (basename f)
        (joinPath dir (derivePdfName (basename f))) retries hnone (hfail i)
        retries 1 ⟨st.k + 1, st.disk, st.saved⟩
      rcases hTA : tryAttempts env i f (basename f)
          (joinPath dir (derivePdfName (basename f))) retries 1 retries
          ⟨st.k + 1, st.disk, st.saved⟩ with ⟨ev1, st1, success⟩
      rw [hTA] at hTAev hsu
      dsimp only at hTAev hsu ⊢
      subst hsu
      rw [show fileBlock2 env (basename f) retries false st1.k =
          ([Event.check st1.k false, Event.fileFailed (basename f) retries],
           st1.k + 1) from by
        rw [fileBlock2, if_neg Bool.false_ne_true, if_neg (by
          rw [hcan st1.k]; exact Bool.false_ne_true)]]
      rw [show fileBlock3 env total processed (st1.k + 1) =
          ([Event.check (st1.k + 1) false,
            Event.progress ((processed + 1) * 100 / total)],
           st1.k + 1 + 1, processed + 1) from by
        rw [fileBlock3, if_neg (by rw [hcan (st1.k + 1)]; exact Bool.false_ne_true)]]
      dsimp only
      unfold countFileFailed at ih ⊢
      simp only [List.countP_cons, List.countP_append]
      rw [ih (i + 1) (processed + 1) ⟨st1.k + 1 + 1, st1.disk, st1.saved⟩]
      have h0 : List.countP (fun e => match e with
        | Event.fileFailed _ _ => true
        | _ => false) ev1 = 0 := countFileFailed_attempt_nil ev1 hTAev
      rw [h0]
      simp [Nat.add_comm]

/-- C4: every run emits exactly one terminal event, placed at the very
end of the trace; it is `"Conversion cancelled."` when the final read of
the cancellation flag returns true and `"All files processed."`
otherwise.  There is no job-level failure status: with no cancellation,
even an engine that fails every attempt on every file yields the terminal
event `"All files processed."`, each failed file being reported only by
its single per-file failure log line. -/
theorem claim4_one_terminal_event (env : Env) (dir : Path) (files : List Path)
    (retries : ℕ) (D : Path → Bool) :
    (∃ l k b, (convert env dir files retries D).events =
        l ++ [Event.check k b,
          Event.complete (if b then "Conversion cancelled."
            else "All files processed.")] ∧
        countCompletes l = 0 ∧
        (env.cancelT = none → b = false)) ∧
    (env.cancelT = none → (∀ i a, env.engineOk i a = false) →
      countFileFailed (convert env dir files retries D).events = files.length) := by
  constructor
  · refine ⟨Event.engineAcquire ::
      (loopFiles env dir retries files.length 0 0 ⟨0, D, []⟩ files).1 ++
      Event.engineQuit ::
      Event.finalizeRun (loopFiles env dir retries files.length 0 0 ⟨0, D, []⟩
        files).2.2.saved ::
      (finalizeAux dir
        (loopFiles env dir retries files.length 0 0 ⟨0, D, []⟩ files).2.2.disk
        (loopFiles env dir retries files.length 0 0 ⟨0, D, []⟩ files).2.2.saved).2,
      (loopFiles env dir retries files.length 0 0 ⟨0, D, []⟩ files).2.2.k,
      isCancelled env.cancelT
        (loopFiles env dir retries files.length 0 0 ⟨0, D, []⟩ files).2.2.k,
      convert_events_shape env dir files retries D, ?_, ?_⟩
    · have h1 : countCompletes (loopFiles env dir retries files.length 0 0
          ⟨0, D, []⟩ files).1 = 0 :=
        countCompletes_worker_nil _ (loopFiles_events_worker env dir retries
          files.length files 0 0 ⟨0, D, []⟩)
      have h2 : countCompletes (finalizeAux dir
          (loopFiles env dir retries files.length 0 0 ⟨0, D, []⟩ files).2.2.disk
          (loopFiles env dir retries files.length 0 0 ⟨0, D, []⟩
            files).2.2.saved).2 = 0 :=
        countCompletes_fin_nil _ (finalizeAux_events_fin dir _ _)
      unfold countCompletes at h1 h2 ⊢
      simp only [List.countP_cons, List.countP_append]
      rw [h1, h2]
      rfl
    · intro hnone
      rw [hnone]
      rfl
  · intro hnone hfail
    rw [convert_events_shape]
    have h2 : countFileFailed (finalizeAux dir
        (loopFiles env dir retries files.length 0 0 ⟨0, D, []⟩ files).2.2.disk
        (loopFiles env dir retries files.length 0 0 ⟨0, D, []⟩
          files).2.2.saved).2 = 0 :=
      countFileFailed_fin_nil _ (finalizeAux_events_fin dir _ _)
    have hl := loopFiles_allfail_count env dir retries files.length hnone hfail
      files 0 0 ⟨0, D, []⟩
    unfold countFileFailed at h2 hl ⊢
    simp only [List.countP_cons, List.countP_append]
    rw [h2, hl]
    simp

/-- Witness for C4's conditional parts: a two-file job with no
cancellation and an all-failing engine records two per-file failures. -/
theorem claim4_one_terminal_event_witness :
    countFileFailed (convert ⟨fun _ _ => false, none⟩ ['o']
      [['a', '.', 'x', 'l', 's'], ['b', '.', 'x', 'l', 's']] 1
      (fun _ => false)).events = 2 :=
  (claim4_one_terminal_event ⟨fun _ _ => false, none⟩ ['o']
    [['a', '.', 'x', 'l', 's'], ['b', '.', 'x', 'l', 's']] 1
    (fun _ => false)).2 rfl (fun _ _ => rfl)

/-- C7: when cancellation is requested before any file starts (the flag is
set from the very first read), no file is attempted: the engine is never
asked to open or export anything, no file is recorded as failed, no
progress value is emitted, the recorded-output list handed to finalization
is empty (finalization still runs, over that empty set), and the terminal
event is the cancellation message. -/
theorem claim7_cancel_before_start (eOk : ℕ → ℕ → Bool) (dir : Path)
    (files : List Path) (retries : ℕ) (D : Path → Bool) :
    countOpens (convert ⟨eOk, some 0⟩ dir files retries D).events = 0 ∧
    countAttempts (convert ⟨eOk, some 0⟩ dir files retries D).events = 0 ∧
    countFileFailed (convert ⟨eOk, some 0⟩ dir files retries D).events = 0 ∧
    progressValues (convert ⟨eOk, some 0⟩ dir files retries D).events = [] ∧
    (convert ⟨eOk, some 0⟩ dir files retries D).saved = [] ∧
    Event.finalizeRun [] ∈ (convert ⟨eOk, some 0⟩ dir files retries D).events ∧
    ∃ l, (convert ⟨eOk, some 0⟩ dir files retries D).events =
      l ++ [Event.complete "Conversion cancelled."] := by
  have h0 : isCancelled (some 0) 0 = true := rfl
  cases files with
  | nil =>
      refine ⟨rfl, rfl, rfl, rfl, rfl, ?_, ?_⟩
      · show Event.finalizeRun [] ∈
          [Event.engineAcquire, Event.engineQuit, Event.finalizeRun [],
            Event.check 0 true, Event.complete "Conversion cancelled."]
        simp
      · exact ⟨[Event.engineAcquire, Event.engineQuit, Event.finalizeRun [],
          Event.check 0 true], rfl⟩
  | cons f fs =>
      have hsh : (convert ⟨eOk, some 0⟩ dir (f :: fs) retries D).events =
          [Event.engineAcquire, Event.check 0 true, Event.cancelNotice,
           Event.engineQuit, Event.finalizeRun [], Event.check 1 true,
           Event.complete "Conversion cancelled."] := by
        unfold convert
        dsimp only
        rw [loopFiles_cancelled ⟨eOk, some 0⟩ dir retries (f :: fs).length 0 0
          ⟨0, D, []⟩ h0 (f :: fs)]
        rfl
      have hsv : (convert ⟨eOk, some 0⟩ dir (f :: fs) retries D).saved = [] := by
        unfold convert
        dsimp only
        rw [loopFiles_cancelled ⟨eOk, some 0⟩ dir retries (f :: fs).length 0 0
          ⟨0, D, []⟩ h0 (f :: fs)]
      refine ⟨?_, ?_, ?_, ?_, hsv, ?_, ?_⟩
      · rw [hsh]; rfl
      · rw [hsh]; rfl
      · rw [hsh]; rfl
      · rw [hsh]; rfl
      · rw [hsh]; simp
      · exact ⟨[Event.engineAcquire, Event.check 0 true, Event.cancelNotice,
          Event.engineQuit, Event.finalizeRun [], Event.check 1 true], by
            rw [hsh]; rfl⟩

/-! ### No attempt starts after the flag is set (C6) -/

theorem lateAttempts_fileBlock2 (t : ℕ) (env : Env) (name : Path) (retries : ℕ)
    (s : Bool) (k : ℕ) : lateAttempts t (fileBlock2 env name retries s k).1 = 0 := by
  unfold fileBlock2
  split_ifs <;> rfl

theorem lateAttempts_fileBlock3 (t : ℕ) (env : Env) (total processed k : ℕ) :
    lateAttempts t (fileBlock3 env total processed k).1 = 0 := by
  unfold fileBlock3
  split_ifs <;> rfl

theorem lateAttempts_fin_nil (t : ℕ) (l : List Event)
    (h : ∀ e ∈ l, isFinEvent e = true) : lateAttempts t l = 0 := by
  refine List.countP_eq_zero.mpr fun e he => ?_
  have hw := h e he
  cases e <;> first | exact fun hc => Bool.noConfusion hc | exact fun hc => Bool.noConfusion hw

/-- Every attempt the retry loop starts was guarded by a cancellation
check that read the flag before its set-point `t`. -/
theorem tryAttempts_late (env : Env) (t : ℕ) (hsome : env.cancelT = some t)
    (i : ℕ) (file name pdfPath : Path) (retries : ℕ) :
    ∀ (fuel a : ℕ) (st : LoopSt),
      lateAttempts t (tryAttempts env i file name pdfPath retries a fuel st).1 = 0 := by
  intro fuel
  induction fuel with
  | zero => intro a st; rfl
  | succ n ih =>
      intro a st
      rw [tryAttempts]
      by_cases h1 : isCancelled env.cancelT st.k
      · rw [if_pos h1]; rfl
      · rw [if_neg h1]
        have hd : decide (t ≤ st.k) = false := by
          rw [hsome] at h1
          simpa [isCancelled] using h1
        by_cases h2 : env.engineOk i a
        · rw [if_pos h2]
          unfold lateAttempts
          simp only [List.countP_cons, List.countP_nil, hd]
          rfl
        · rw [if_neg h2]
          dsimp only
          have hrec := ih (a + 1) ⟨st.k + 1, st.disk, st.saved⟩
          unfold lateAttempts at hrec ⊢
          simp only [List.countP_cons, hd, hrec]
          simp

/-- Same property for the whole per-file loop. -/
theorem loopFiles_late (env : Env) (t : ℕ) (hsome : env.cancelT = some t)
    (dir : Path) (retries total : ℕ) :
    ∀ (files : List Path) (i processed : ℕ) (st : LoopSt),
      lateAttempts t (loopFiles env dir retries total i processed st files).1 = 0 := by
  intro files
  induction files with
  | nil => intro i processed st; rfl
  | cons f fs ih =>
      intro i processed st
      rw [loopFiles]
      by_cases h1 : isCancelled env.cancelT st.k
      · rw [if_pos h1]; rfl
      · rw [if_neg h1]
        dsimp only
        have h2 := tryAttempts_late env t hsome i f (basename f)
          (joinPath dir (derivePdfName (basename f))) retries retries 1
          ⟨st.k + 1, st.disk, st.saved⟩
        have h3 := lateAttempts_fileBlock2 t env (basename f) retries
          (tryAttempts env i f (basename f) (joinPath dir (derivePdfName (basename f)))
            retries 1 retries ⟨st.k + 1, st.disk, st.saved⟩).2.2
          (tryAttempts env i f (basename f) (joinPath dir (derivePdfName (basename f)))
            retries 1 retries ⟨st.k + 1, st.disk, st.saved⟩).2.1.k
        have h4 := lateAttempts_fileBlock3 t env total processed
          (fileBlock2 env (basename f) retries
            (tryAttempts env i f (basename f)
              (joinPath dir (derivePdfName (basename f)))
              retries 1 retries ⟨st.k + 1, st.disk, st.saved⟩).2.2
            (tryAttempts env i f (basename f)
              (joinPath dir (derivePdfName (basename f)))
              retries 1 retries ⟨st.k + 1, st.disk, st.saved⟩).2.1.k).2
        have h5 := ih (i + 1) (fileBlock3 env total processed
          (fileBlock2 env (basename f) retries
            (tryAttempts env i f (basename f)
              (joinPath dir (derivePdfName (basename f)))
              retries 1 retries ⟨st.k + 1, st.disk, st.saved⟩).2.2
            (tryAttempts env i f (basename f)
              (joinPath dir (derivePdfName (basename f)))
              retries 1 retries ⟨st.k + 1, st.disk, st.saved⟩).2.1.k).2).2.2
          ⟨(fileBlock3 env total processed
            (fileBlock2 env (basename f) retries
              (tryAttempts env i f (basename f)
                (joinPath dir (derivePdfName (basename f)))
                retries 1 retries ⟨st.k + 1, st.disk, st.saved⟩).2.2
              (tryAttempts env i f (basename f)
                (joinPath dir (derivePdfName (basename f)))
                retries 1 retries ⟨st.k + 1, st.disk, st.saved⟩).2.1.k).2).2.1,
           (tryAttempts env i f (basename f)
             (joinPath dir (derivePdfName (basename f)))
             retries 1 retries ⟨st.k + 1, st.disk, st.saved⟩).2.1.disk,
           (tryAttempts env i f (basename f)
             (joinPath dir (derivePdfName (basename f)))
             retries 1 retries ⟨st.k + 1, st.disk, st.saved⟩).2.1.saved⟩
        unfold lateAttempts at h2 h3 h4 h5 ⊢
        simp only [List.countP_cons, List.countP_append, h2, h3, h4, h5]
        simp

/-- C6: once the cancellation flag is set — at check-tick `t` — no new
conversion attempt is ever started: every attempt in the trace is guarded
by a flag read at a tick `< t` (cancellation acts only at the checked
points; in the model an attempt, once guarded, runs to its end, never
interrupted mid-attempt).  Scenario instance: a 3-file job with retry
limit 3 whose engine succeeds on file 1 and fails on file 2, cancelled at
tick 5 (during file 2's retry loop): file 1 is fully processed (converted,
progress 33 emitted), file 2 makes exactly one attempt and aborts before
its next retry attempt, file 3 is never attempted, and the terminal event
is the cancellation message. -/
theorem claim6_cancel_takes_effect_at_checkpoints :
    (∀ (eOk : ℕ → ℕ → Bool) (t : ℕ) (dir : Path) (files : List Path)
      (retries : ℕ) (D : Path → Bool),
      lateAttempts t (convert ⟨eOk, some t⟩ dir files retries D).events = 0) ∧
    ((convert ⟨fun i _ => i == 0, some 5⟩ ['o']
        [['a', '.', 'x', 'l', 's'], ['b', '.', 'x', 'l', 's'],
         ['c', '.', 'x', 'l', 's']] 3 (fun _ => false)).events.countP
      (fun e => match e with
        | Event.convertedLog n _ => n == ['a', '.', 'x', 'l', 's']
        | _ => false) = 1) ∧
    (Event.progress 33 ∈ (convert ⟨fun i _ => i == 0, some 5⟩ ['o']
        [['a', '.', 'x', 'l', 's'], ['b', '.', 'x', 'l', 's'],
         ['c', '.', 'x', 'l', 's']] 3 (fun _ => false)).events) ∧
    ((convert ⟨fun i _ => i == 0, some 5⟩ ['o']
        [['a', '.', 'x', 'l', 's'], ['b', '.', 'x', 'l', 's'],
         ['c', '.', 'x', 'l', 's']] 3 (fun _ => false)).events.countP
      (fun e => match e with
        | Event.attemptLog _ n _ _ => n == ['b', '.', 'x', 'l', 's']
        | _ => false) = 1) ∧
    ((convert ⟨fun i _ => i == 0, some 5⟩ ['o']
        [['a', '.', 'x', 'l', 's'], ['b', '.', 'x', 'l', 's'],
         ['c', '.', 'x', 'l', 's']] 3 (fun _ => false)).events.countP
      (fun e => match e with
        | Event.attemptLog _ n _ _ => n == ['c', '.', 'x', 'l', 's']
        | _ => false) = 0) ∧
    ((convert ⟨fun i _ => i == 0, some 5⟩ ['o']
        [['a', '.', 'x', 'l', 's'], ['b', '.', 'x', 'l', 's'],
         ['c', '.', 'x', 'l', 's']] 3 (fun _ => false)).events.getLast? =
      some (Event.complete "Conversion cancelled.")) := by
  refine ⟨?_, by decide, by decide, by decide, by decide, by decide⟩
  intro eOk t dir files retries D
  rw [convert_events_shape]
  have h1 := loopFiles_late ⟨eOk, some t⟩ t rfl dir retries files.length files 0 0
    ⟨0, D, []⟩
  have h2 := lateAttempts_fin_nil t _ (finalizeAux_events_fin dir
    (loopFiles ⟨eOk, some t⟩ dir retries files.length 0 0 ⟨0, D, []⟩ files).2.2.saved
    (loopFiles ⟨eOk, some t⟩ dir retries files.length 0 0 ⟨0, D, []⟩ files).2.2.disk)
  unfold lateAttempts at h1 h2 ⊢
  simp only [List.countP_cons, List.countP_append, h1, h2]
  rfl

/-- C9: on every execution path — completion, all-files-failed, or
cancellation — the engine handle is acquired exactly once, at the very
start of the run, and released (`Quit`) exactly once; the release comes
after the whole per-file loop and before both the finalization pass and
the terminal event. -/
theorem claim9_engine_acquired_released_once (env : Env) (dir : Path)
    (files : List Path) (retries : ℕ) (D : Path → Bool) :
    countAcquires (convert env dir files retries D).events = 1 ∧
    countQuits (convert env dir files retries D).events = 1 ∧
    ∃ mid fin k b msg,
      (convert env dir files retries D).events =
        Event.engineAcquire :: mid ++ Event.engineQuit ::
          Event.finalizeRun (convert env dir files retries D).saved ::
          (fin ++ [Event.check k b, Event.complete msg]) ∧
      countAcquires mid = 0 ∧ countQuits mid = 0 ∧
      (∀ e ∈ mid, isWorkerEvent e = true) ∧
      (∀ e ∈ fin, isFinEvent e = true) := by
  have hmid := loopFiles_events_worker env dir retries files.length files 0 0
    ⟨0, D, []⟩
  have hfin := finalizeAux_events_fin dir
    (loopFiles env dir retries files.length 0 0 ⟨0, D, []⟩ files).2.2.saved
    (loopFiles env dir retries files.length 0 0 ⟨0, D, []⟩ files).2.2.disk
  have hmidA : countAcquires (loopFiles env dir retries files.length 0 0
      ⟨0, D, []⟩ files).1 = 0 := countAcquires_worker_nil _ hmid
  have hmidQ : countQuits (loopFiles env dir retries files.length 0 0
      ⟨0, D, []⟩ files).1 = 0 := countQuits_worker_nil _ hmid
  have hfinA : countAcquires (finalizeAux dir
      (loopFiles env dir retries files.length 0 0 ⟨0, D, []⟩ files).2.2.disk
      (loopFiles env dir retries files.length 0 0 ⟨0, D, []⟩ files).2.2.saved).2 = 0 :=
    countAcquires_fin_nil _ (finalizeAux_events_fin dir _ _)
  have hfinQ : countQuits (finalizeAux dir
      (loopFiles env dir retries files.length 0 0 ⟨0, D, []⟩ files).2.2.disk
      (loopFiles env dir retries files.length 0 0 ⟨0, D, []⟩ files).2.2.saved).2 = 0 :=
    countQuits_fin_nil _ (finalizeAux_events_fin dir _ _)
  refine ⟨?_, ?_, (loopFiles env dir retries files.length 0 0 ⟨0, D, []⟩ files).1,
    (finalizeAux dir
      (loopFiles env dir retries files.length 0 0 ⟨0, D, []⟩ files).2.2.disk
      (loopFiles env dir retries files.length 0 0 ⟨0, D, []⟩ files).2.2.saved).2,
    (loopFiles env dir retries files.length 0 0 ⟨0, D, []⟩ files).2.2.k,
    isCancelled env.cancelT
      (loopFiles env dir retries files.length 0 0 ⟨0, D, []⟩ files).2.2.k,
    (if isCancelled env.cancelT
        (loopFiles env dir retries files.length 0 0 ⟨0, D, []⟩ files).2.2.k
      then "Conversion cancelled." else "All files processed."),
    ?_, hmidA, hmidQ, hmid, hfin⟩
  · rw [convert_events_shape]
    unfold countAcquires at hmidA hfinA ⊢
    simp only [List.countP_cons, List.countP_append, hmidA, hfinA]
    rfl
  · rw [convert_events_shape]
    unfold countQuits at hmidQ hfinQ ⊢
    simp only [List.countP_cons, List.countP_append, hmidQ, hfinQ]
    rfl
  · rw [convert_events_shape]
    simp only [List.append_assoc, List.cons_append, List.nil_append]
    rfl

/-! ### The retry loop's backoff discipline (C8) -/

/-- The discipline asserted by the claim: every backoff sleep is followed,
later in the trace, by another conversion attempt (a sleep happens "only
before a next attempt"). -/
def sleepsPrecedeAttempt : List Event → Bool
  | [] => true
  | Event.sleep :: rest => (countAttempts rest != 0) && sleepsPrecedeAttempt rest
  | _ :: rest => sleepsPrecedeAttempt rest

/-- C8 counterexample: with retry limit 1, one always-failing file and no
cancellation, the single failed attempt is followed by a backoff sleep
after which no attempt ever starts — `time.sleep(1)` sits in the `except`
block and runs after the final failed attempt too, so the claim's "only
before a next attempt" is false on this run. -/
theorem claim8_counterexample_sleep_after_last :
    sleepsPrecedeAttempt (convert ⟨fun _ _ => false, none⟩ ['o']
      [['a', '.', 'x', 'l', 's']] 1 (fun _ => false)).events = false := by decide

theorem tryAttempts_count_le (env : Env) (i : ℕ) (file name pdfPath : Path)
    (retries : ℕ) : ∀ (fuel a : ℕ) (st : LoopSt),
    countAttempts (tryAttempts env i file name pdfPath retries a fuel st).1 ≤ fuel := by
  intro fuel
  induction fuel with
  | zero => intro a st; exact Nat.le_refl 0
  | succ n ih =>
      intro a st
      rw [tryAttempts]
      by_cases h1 : isCancelled env.cancelT st.k
      · rw [if_pos h1]
        show countAttempts [Event.check st.k true] ≤ n + 1
        simp [countAttempts]
      · rw [if_neg h1]
        by_cases h2 : env.engineOk i a
        · rw [if_pos h2]
          show countAttempts [Event.check st.k false,
            Event.attemptLog st.k name a retries, Event.engineOpen file,
            Event.engineExport pdfPath, Event.engineClose,
            Event.convertedLog name pdfPath] ≤ n + 1
          simp [countAttempts]
        · rw [if_neg h2]
          dsimp only
          have hrec := ih (a + 1) ⟨st.k + 1, st.disk, st.saved⟩
          have hstep : countAttempts (Event.check st.k false ::
              Event.attemptLog st.k name a retries :: Event.engineOpen file ::
              Event.attemptError name a :: Event.sleep ::
              (tryAttempts env i file name pdfPath retries (a + 1) n
                ⟨st.k + 1, st.disk, st.saved⟩).1) =
              countAttempts (tryAttempts env i file name pdfPath retries (a + 1) n
                ⟨st.k + 1, st.disk, st.saved⟩).1 + 1 := by
            unfold countAttempts
            simp [List.countP_cons]
          rw [hstep]
          exact Nat.succ_le_succ hrec

/-- An attempt whose guard read the flag as unset and whose engine call
succeeds ends the retry loop at once: one attempt, no sleep, the PDF
recorded. -/
theorem tryAttempts_first_success (env : Env) (i : ℕ) (file name pdfPath : Path)
    (retries a fuel : ℕ) (st : LoopSt)
    (hc : isCancelled env.cancelT st.k = false) (hok : env.engineOk i a = true) :
    tryAttempts env i file name pdfPath retries a (fuel + 1) st =
      ([Event.check st.k false, Event.attemptLog st.k name a retries,
        Event.engineOpen file, Event.engineExport pdfPath, Event.engineClose,
        Event.convertedLog name pdfPath],
       ⟨st.k + 1, addFile st.disk pdfPath, st.saved ++ [pdfPath]⟩, true) := by
  rw [tryAttempts, if_neg (by rw [hc]; exact Bool.false_ne_true), if_pos hok]

/-- C8 (amended): for every file the retry loop makes at most `retries`
attempts and stops at the first successful attempt (which sleeps no
backoff); with no cancellation and an engine failing every attempt, the
loop makes exactly `retries` attempts and sleeps the fixed 1-unit backoff
after **each** failed attempt — the final one included, so a fully failing
file incurs `retries` sleeps, not `retries - 1` — reports no success, and
the job then records exactly one terminal per-file failure per such file. -/
theorem claim8_retry_backoff_amended :
    (∀ (env : Env) (i : ℕ) (file name pdfPath : Path) (retries : ℕ) (st : LoopSt),
      countAttempts (tryAttempts env i file name pdfPath retries 1 retries st).1 ≤
        retries) ∧
    (∀ (env : Env) (i : ℕ) (file name pdfPath : Path) (retries a fuel : ℕ)
      (st : LoopSt), isCancelled env.cancelT st.k = false →
      env.engineOk i a = true →
      tryAttempts env i file name pdfPath retries a (fuel + 1) st =
        ([Event.check st.k false, Event.attemptLog st.k name a retries,
          Event.engineOpen file, Event.engineExport pdfPath, Event.engineClose,
          Event.convertedLog name pdfPath],
         ⟨st.k + 1, addFile st.disk pdfPath, st.saved ++ [pdfPath]⟩, true)) ∧
    (∀ (env : Env) (i : ℕ) (file name pdfPath : Path) (retries : ℕ) (st : LoopSt),
      env.cancelT = none → (∀ b, env.engineOk i b = false) →
      countAttempts (tryAttempts env i file name pdfPath retries 1 retries st).1 =
        retries ∧
      countSleeps (tryAttempts env i file name pdfPath retries 1 retries st).1 =
        retries ∧
      (tryAttempts env i file name pdfPath retries 1 retries st).2.2 = false) ∧
    (∀ (env : Env) (dir : Path) (retries : ℕ) (files : List Path) (D : Path → Bool),
      env.cancelT = none → (∀ i a, env.engineOk i a = false) →
      countFileFailed (loopFiles env dir retries files.length 0 0 ⟨0, D, []⟩
        files).1 = files.length) := by
  refine ⟨?_, ?_, ?_, ?_⟩
  · intro env i file name pdfPath retries st
    exact tryAttempts_count_le env i file name pdfPath retries retries 1 st
  · intro env i file name pdfPath retries a fuel st hc hok
    exact tryAttempts_first_success env i file name pdfPath retries a fuel st hc hok
  · intro env i file name pdfPath retries st hnone hfail
    obtain ⟨h1, h2, h3, _⟩ := tryAttempts_allfail env i file name pdfPath retries
      hnone hfail retries 1 st
    exact ⟨h1, h2, h3⟩
  · intro env dir retries files D hnone hfail
    exact loopFiles_allfail_count env dir retries files.length hnone hfail files 0 0
      ⟨0, D, []⟩

/-- Witness for C8 (amended) at retry limit 2, one failing file: two
attempts, two sleeps, no success, one recorded failure. -/
theorem claim8_retry_backoff_amended_witness :
    countAttempts (tryAttempts ⟨fun _ _ => false, none⟩ 0 ['a'] ['a'] ['p'] 2 1 2
      ⟨0, fun _ => false, []⟩).1 ≤ 2 ∧
    tryAttempts ⟨fun _ _ => true, none⟩ 0 ['a'] ['a'] ['p'] 2 1 (1 + 1)
      ⟨0, fun _ => false, []⟩ =
      ([Event.check 0 false, Event.attemptLog 0 ['a'] 1 2, Event.engineOpen ['a'],
        Event.engineExport ['p'], Event.engineClose,
        Event.convertedLog ['a'] ['p']],
       ⟨0 + 1, addFile (fun _ => false) ['p'], [] ++ [['p']]⟩, true) ∧
    countSleeps (tryAttempts ⟨fun _ _ => false, none⟩ 0 ['a'] ['a'] ['p'] 2 1 2
      ⟨0, fun _ => false, []⟩).1 = 2 ∧
    countFileFailed (loopFiles ⟨fun _ _ => false, none⟩ ['o'] 2
      [['a', '.', 'x', 'l', 's']].length 0 0 ⟨0, fun _ => false, []⟩
      [['a', '.', 'x', 'l', 's']]).1 = 1 := by
  refine ⟨claim8_retry_backoff_amended.1 ⟨fun _ _ => false, none⟩ 0 ['a'] ['a'] ['p']
      2 ⟨0, fun _ => false, []⟩,
    claim8_retry_backoff_amended.2.1 ⟨fun _ _ => true, none⟩ 0 ['a'] ['a'] ['p'] 2 1 1
      ⟨0, fun _ => false, []⟩ rfl rfl,
    (claim8_retry_backoff_amended.2.2.1 ⟨fun _ _ => false, none⟩ 0 ['a'] ['a'] ['p']
      2 ⟨0, fun _ => false, []⟩ rfl (fun _ => rfl)).2.1,
    claim8_retry_backoff_amended.2.2.2 ⟨fun _ _ => false, none⟩ ['o'] 2
      [['a', '.', 'x', 'l', 's']] (fun _ => false) rfl (fun _ _ => rfl)⟩

end ExcelToPDF
